import Mathlib

/-!
Verification development for the mention/autocomplete annotation engine of the
rayshot repository (the `MentionTextarea` component).

The buffer is modelled as a `List Char`; offsets are `Nat`.  JavaScript's
ASCII-relevant case folding is modelled with `Char.toLower` (the inputs the
development evaluates are ASCII letters and CJK ideographs, on which this
agrees with `String.prototype.toLowerCase`).  The external `pinyin-pro`
transliteration library is not part of the repository; following the spec's
Transliteration Adapter contract it is treated as an abstract parameter
`romanize`, with a possible failure (`Option`) triggering the source's
`try/catch` fallback to lower-casing.
-/

set_option maxHeartbeats 1000000

/-! ## Character classes -/

/-- Delimiters of the word-boundary locator's general branch
(`findCurrentWord`, source lines 82 and 89): space, `\n`, `\t`, `\r`. -/
def isDelim (c : Char) : Bool :=
  c == ' ' || c == '\n' || c == '\t' || c == '\r'

/-- Delimiters checked by the cursor-at-zero branch of the locator
(source lines 67 and 69): space, `\n`, `\t` — the source omits `\r` there. -/
def isDelim0 (c : Char) : Bool :=
  c == ' ' || c == '\n' || c == '\t'

/-- JavaScript whitespace (`\s`), restricted to its ASCII members; the inputs
of this development contain no exotic Unicode spaces. -/
def isJsSpace (c : Char) : Bool :=
  c == ' ' || c == '\t' || c == '\n' || c == '\r' || c == '\x0b' || c == '\x0c'

/-- Unicode punctuation (`\p{P}`), restricted to its ASCII members; the
buffers this development evaluates contain only ASCII and CJK ideographs
(which are not punctuation). -/
def isPunctChar (c : Char) : Bool :=
  (['!', '"', '#', '%', '&', '\'', '(', ')', '*', ',', '-', '.', '/',
    ':', ';', '?', '@', '[', '\\', ']', '_', '\x7b', '\x7d']).contains c

/-- The boundary character class of the occurrence scanner's regular
expression `/[\s\n\t\r\p{P}]/u` (source line 289). -/
def isBoundaryChar (c : Char) : Bool :=
  isJsSpace c || isPunctChar c

/-- CJK test of the occurrence scanner: `/[一-龥]/` (source line 259). -/
def isChineseChar (c : Char) : Bool :=
  decide (0x4e00 ≤ c.toNat) && decide (c.toNat ≤ 0x9fa5)

/-- Test that `keywordName` contains a CJK character (source line 259). -/
def containsChinese (s : List Char) : Bool :=
  s.any isChineseChar

/-! ## Small string helpers -/

/-- Embedding of `String.prototype.trim`: strip surrounding whitespace. -/
def trimL (s : List Char) : List Char :=
  ((s.dropWhile isJsSpace).reverse.dropWhile isJsSpace).reverse

/-- Embedding of `s.startsWith(p)` on character lists. -/
def startsWithL (s p : List Char) : Bool :=
  p.isPrefixOf s

/-- Embedding of `text.substring(s, e)` for `s ≤ e`: the characters of `[s, e)`. -/
def substringL (text : List Char) (s e : Nat) : List Char :=
  (text.take e).drop s

/-- Embedding of `a.localeCompare(b)`, modelled as code-point lexicographic comparison
(the locale-aware order coincides with it on the names this development
evaluates; the comparator only consults it when all other tiers tie). -/
def lexCompare : List Char → List Char → Int
  | [], [] => 0
  | [], _ :: _ => -1
  | _ :: _, [] => 1
  | a :: as, b :: bs =>
    if a < b then -1 else if b < a then 1 else lexCompare as bs

/-! ## Data model -/

/-- A project keyword.  The source's `ProjectKeyword` also carries display
fields (`category`, `visual_traits`) that the engine logic never reads;
only `name` flows into matching, ranking and scanning. -/
structure ProjectKeyword where
  name : List Char
deriving DecidableEq, Repr

/-- Result of the word-boundary locator `findCurrentWord`
(`{ word, start, end }` in the source; `end` is a Lean keyword, so the
field is called `stop`). -/
structure WordInfo where
  word : List Char
  start : Nat
  stop : Nat
deriving DecidableEq, Repr

/-- The source's `MatchResult` (source lines 24-31): `bestMatch` and
`suffix` are optional fields that `findMatches` always fills. -/
structure MatchResult where
  currentWord : List Char
  start : Nat
  stop : Nat
  matchList : List ProjectKeyword
  bestMatch : Option ProjectKeyword
  suffix : Option (List Char)
deriving DecidableEq, Repr

/-- A keyword-occurrence span of the occurrence scanner
(`{ start, end, keyword }`; `end` is again called `stop`). -/
structure Span where
  start : Nat
  stop : Nat
  keyword : ProjectKeyword
deriving DecidableEq, Repr

/-- A highlight candidate of the span merger (`{ start, end, isKeyword }`;
`isKeyword = true` is the spec's `KeywordMatch` kind, `false` is
`TransientFeedback`). -/
structure Highlight where
  start : Nat
  stop : Nat
  isKeyword : Bool
deriving DecidableEq, Repr

/-! ## Word-boundary locator (`findCurrentWord`, source lines 59-97) -/

/-- The leftward scan of `findCurrentWord` (source lines 81-85): starting at
index `i`, walk left while characters are non-delimiters; the result is the
start offset of the word (one past the delimiter that stopped the scan, or 0). -/
def wordStart (text : List Char) : Nat → Nat
  | 0 => if isDelim (text.getD 0 ' ') then 1 else 0
  | i + 1 => if isDelim (text.getD (i + 1) ' ') then i + 2 else wordStart text i

/-- The rightward scan of `findCurrentWord` (source lines 88-91): starting at
offset `i`, walk right while characters are non-delimiters. -/
def wordEnd (text : List Char) (i : Nat) : Nat :=
  i + ((text.drop i).takeWhile (fun c => !isDelim c)).length

/-- The rightward scan of the cursor-at-zero branch (source lines 68-71),
which checks only space, `\n`, `\t`. -/
def wordEnd0 (text : List Char) : Nat :=
  (text.takeWhile (fun c => !isDelim0 c)).length

/-- Embedding of `findCurrentWord(text, cursorPos)` (source lines 59-97). -/
def findCurrentWord (text : List Char) (cursorPos : Nat) : Option WordInfo :=
  if text.isEmpty then none
  else
    let pos := min cursorPos text.length
    if pos = 0 then
      if !isDelim0 (text.getD 0 ' ') then
        let e := wordEnd0 text
        let w := substringL text 0 e
        if 0 < w.length then some ⟨w, 0, e⟩ else none
      else none
    else
      let s := wordStart text (pos - 1)
      let e := wordEnd text pos
      let w := substringL text s e
      if w.length = 0 then none else some ⟨w, s, e⟩

/-! ## Transliteration adapter (`toPinyin` / `getFirstCharPinyin`,
source lines 99-117) -/

/-- Embedding of `toPinyin` (source lines 100-106): apply the external library, lower-case
and strip whitespace; on a library failure fall back to lower-casing the
input.  `romanize` abstracts the `pinyin-pro` call, `none` meaning it threw. -/
def toPinyin (romanize : List Char → Option (List Char)) (text : List Char) :
    List Char :=
  match romanize text with
  | some r => (r.map Char.toLower).filter (fun c => !isJsSpace c)
  | none => text.map Char.toLower

/-- Embedding of `getFirstCharPinyin` (source lines 109-117). -/
def getFirstCharPinyin (romanize : List Char → Option (List Char))
    (text : List Char) : List Char :=
  match text with
  | [] => []
  | c :: _ =>
    match romanize [c] with
    | some r => r.map Char.toLower
    | none => [Char.toLower c]

/-- Modelled from the spec: the `pinyin-pro` library is external to the
repository; per the spec's Transliteration Adapter contract, "for
already-Latin text, lower-casing is sufficient".  This instantiation is used
for the concrete Latin-only evaluations of this development. -/
def romanizeLatin : List Char → Option (List Char) :=
  fun s => some (s.map Char.toLower)

/-! ## Keyword matcher (`matchesKeyword`, source lines 120-158) -/

/-- Embedding of `matchesKeyword(input, keyword)` (source lines 120-158): the four match
rules, tried in order.  Rule 2 (source line 139) compares the raw first
characters with `===`, without lower-casing. -/
def matchesKeyword (romanize : List Char → Option (List Char))
    (input keyword : List Char) : Bool :=
  if input.isEmpty || keyword.isEmpty then false
  else
    let trimmedInput := trimL input
    if trimmedInput.isEmpty then false
    else
      let lowerInput := trimmedInput.map Char.toLower
      let lowerKeyword := keyword.map Char.toLower
      -- 1. direct prefix match, excluding equality
      if startsWithL lowerKeyword lowerInput && lowerKeyword != lowerInput then
        true
      -- 2. first-character match (raw characters, case-sensitive in source)
      else if decide (0 < keyword.length) &&
          keyword.headD ' ' == trimmedInput.headD ' ' then
        true
      else
        -- 3. pinyin prefix match
        let keywordPinyin := toPinyin romanize keyword
        if !keywordPinyin.isEmpty && startsWithL keywordPinyin lowerInput then
          true
        else
          -- 4. first-character pinyin match
          let firstCharPinyin := getFirstCharPinyin romanize keyword
          if !firstCharPinyin.isEmpty && startsWithL firstCharPinyin lowerInput
          then true
          else false

/-! ## A stable sort (JavaScript `Array.prototype.sort` is stable) -/

/-- Insert `x` before the first element `y` with `le x y`; used to model the
stable JavaScript sort. -/
def insertLe (le : α → α → Bool) (x : α) : List α → List α
  | [] => [x]
  | y :: ys => if le x y then x :: y :: ys else y :: insertLe le x ys

/-- Stable sort by the boolean relation `le` (ties keep original order,
matching JavaScript's stable `Array.prototype.sort`). -/
def stableSort (le : α → α → Bool) (l : List α) : List α :=
  l.foldr (insertLe le) []

theorem mem_insertLe (le : α → α → Bool) (x : α) (l : List α) (a : α) :
    a ∈ insertLe le x l ↔ a = x ∨ a ∈ l := by
  induction l with
  | nil => simp [insertLe]
  | cons y ys ih =>
    simp only [insertLe]
    by_cases h : le x y
    · simp [h]
    · simp [h, ih]
      tauto

theorem mem_stableSort (le : α → α → Bool) (l : List α) (a : α) :
    a ∈ stableSort le l ↔ a ∈ l := by
  induction l with
  | nil => simp [stableSort]
  | cons y ys ih =>
    simp only [stableSort, List.foldr] at *
    rw [mem_insertLe]
    simp [ih]

theorem pairwise_insertLe (le : α → α → Bool)
    (htr : ∀ a b c, le a b = true → le b c = true → le a c = true)
    (hto : ∀ a b, le a b = true ∨ le b a = true)
    (x : α) (l : List α) (hl : l.Pairwise (fun a b => le a b = true)) :
    (insertLe le x l).Pairwise (fun a b => le a b = true) := by
  induction l with
  | nil => simp [insertLe]
  | cons y ys ih =>
    rcases List.pairwise_cons.mp hl with ⟨hy, hys⟩
    simp only [insertLe]
    by_cases h : le x y
    · rw [if_pos h]
      refine List.pairwise_cons.mpr ⟨?_, hl⟩
      intro b hb
      rcases List.mem_cons.mp hb with rfl | hb
      · exact h
      · exact htr x y b h (hy b hb)
    · rw [if_neg h]
      refine List.pairwise_cons.mpr ⟨?_, ih hys⟩
      intro b hb
      rw [mem_insertLe] at hb
      rcases hb with hb | hb
      · rw [hb]
        rcases hto x y with hxy | hyx
        · exact absurd hxy h
        · exact hyx
      · exact hy b hb

theorem pairwise_stableSort (le : α → α → Bool)
    (htr : ∀ a b c, le a b = true → le b c = true → le a c = true)
    (hto : ∀ a b, le a b = true ∨ le b a = true) (l : List α) :
    (stableSort le l).Pairwise (fun a b => le a b = true) := by
  induction l with
  | nil => simp [stableSort]
  | cons y ys ih =>
    exact pairwise_insertLe le htr hto y (stableSort le ys) ih

/-! ## Relevance ranker (`findMatches`, source lines 161-248) -/

/-- The sort comparator of `findMatches` (source lines 180-210): exact-prefix
tier, then first-character tier (lower-cased there), then pinyin-prefix tier,
then length, then `localeCompare`. -/
def matchCompare (romanize : List Char → Option (List Char))
    (word : List Char) (a b : ProjectKeyword) : Int :=
  let aName := a.name.map Char.toLower
  let bName := b.name.map Char.toLower
  let lowerWord := word.map Char.toLower
  let aPref := startsWithL aName lowerWord
  let bPref := startsWithL bName lowerWord
  if aPref && !bPref then -1
  else if !aPref && bPref then 1
  else
    let aFirst := (a.name.head?.map Char.toLower) == (word.head?.map Char.toLower)
    let bFirst := (b.name.head?.map Char.toLower) == (word.head?.map Char.toLower)
    if aFirst && !bFirst then -1
    else if !aFirst && bFirst then 1
    else
      let aPin := startsWithL (toPinyin romanize a.name) lowerWord
      let bPin := startsWithL (toPinyin romanize b.name) lowerWord
      if aPin && !bPin then -1
      else if !aPin && bPin then 1
      else if a.name.length = b.name.length then lexCompare a.name b.name
      else (a.name.length : Int) - (b.name.length : Int)

/-- Embedding of `findMatches(word)` (source lines 161-248): filter the keywords through
`matchesKeyword`, sort with the comparator (JavaScript's sort is stable),
take the head as best match and compute the ghost suffix. -/
def findMatches (romanize : List Char → Option (List Char))
    (word : List Char) (keywords : List ProjectKeyword) : Option MatchResult :=
  if word.isEmpty || keywords.isEmpty then none
  else
    let ms := keywords.filter (fun k => matchesKeyword romanize word k.name)
    if ms.isEmpty then none
    else
      match stableSort (fun a b => decide (matchCompare romanize word a b ≤ 0)) ms with
      | [] => none
      | best :: rest =>
        let lowerWord := word.map Char.toLower
        let lowerKeyword := best.name.map Char.toLower
        let suffix :=
          if startsWithL lowerKeyword lowerWord then
            -- direct prefix match (source line 220-222)
            best.name.drop word.length
          else if best.name.head? == word.head? then
            -- first-character match (source line 223-225)
            best.name.drop 1
          else
            -- pinyin match, with the source's coarse fallback slice; both
            -- branches of the source's final if produce the same slice
            -- (source lines 227-237)
            let keywordPinyin := toPinyin romanize best.name
            if startsWithL keywordPinyin lowerWord then
              best.name.drop (min word.length best.name.length)
            else
              best.name.drop (min word.length best.name.length)
        some ⟨word, 0, 0, best :: rest, some best, some suffix⟩

/-! ## Occurrence scanner (`findAllKeywordMatches`, source lines 251-326) -/

/-- Predicate that `pat` occurs literally at offset `i` of `text`. -/
def matchesAt (text pat : List Char) (i : Nat) : Bool :=
  (text.drop i).take pat.length == pat

/-- Embedding of `text.indexOf(pat, start)`: the least offset `i ≥ min start (length text)`
at which `pat` occurs (JavaScript clamps the start index to the length). -/
def indexOfFrom (text pat : List Char) (start : Nat) : Option Nat :=
  ((List.range (text.length + 1)).filter
    (fun i => decide (min start text.length ≤ i) && matchesAt text pat i)).head?

/-- One `while (true) { indexOf ... searchIndex = index + 1 }` scan loop of
the occurrence scanner (source lines 263-275 and 280-304): collect the
occurrence offsets in increasing order, restarting one past each hit.  The
`fuel` argument only bounds the iteration count for termination; for a
non-empty `pat` the wrapper's `text.length + 1` is never exhausted (the
source loop would not terminate on an empty keyword name). -/
def scanPosAux (text pat : List Char) : Nat → Nat → List Nat
  | 0, _ => []
  | fuel + 1, start =>
    match indexOfFrom text pat start with
    | none => []
    | some i => i :: scanPosAux text pat fuel (i + 1)

/-- All occurrence offsets of `pat` in `text`, in increasing order. -/
def scanPositions (text pat : List Char) : List Nat :=
  scanPosAux text pat (text.length + 1) 0

/-- The whole-word check of the scanner's non-CJK branch (source lines
286-295): boundary characters on both sides, **or** the occurrence touches
the start or the end of the buffer (the source's `isAtStart`/`isAtEnd`
bypass). -/
def boundaryOk (text pat : List Char) (i : Nat) : Bool :=
  let beforeChar := if 0 < i then text.getD (i - 1) ' ' else ' '
  let afterChar :=
    if i + pat.length < text.length then text.getD (i + pat.length) ' ' else ' '
  let isWordBoundary := isBoundaryChar beforeChar && isBoundaryChar afterChar
  isWordBoundary || decide (i = 0) || decide (i + pat.length = text.length)

/-- The per-keyword scan of `findAllKeywordMatches` (source lines 257-306):
CJK keywords record every literal occurrence; other keywords are searched
case-insensitively and filtered by `boundaryOk`. -/
def keywordOccurrences (text : List Char) (kw : ProjectKeyword) : List Span :=
  if containsChinese kw.name then
    (scanPositions text kw.name).map (fun i => ⟨i, i + kw.name.length, kw⟩)
  else
    (((scanPositions (text.map Char.toLower) (kw.name.map Char.toLower)).filter
      (fun i => boundaryOk text kw.name i)).map
      (fun i => ⟨i, i + kw.name.length, kw⟩))

/-- The source's overlap test between a candidate span `m` and an accepted
span `e` (source lines 314-318). -/
def overlapsS (m e : Span) : Bool :=
  (decide (e.start ≤ m.start) && decide (m.start < e.stop)) ||
  (decide (e.start < m.stop) && decide (m.stop ≤ e.stop)) ||
  (decide (m.start ≤ e.start) && decide (e.stop ≤ m.stop))

/-- Two spans intersect as half-open intervals. -/
def intersectsS (a b : Span) : Bool :=
  decide (a.start < b.stop) && decide (b.start < a.stop)

/-- The overlap-removal walk of the scanner (source lines 312-323): keep a
candidate only if it overlaps no previously accepted span, first-accepted
wins. -/
def dedupSpans : List Span → List Span → List Span
  | acc, [] => acc
  | acc, m :: rest =>
    if acc.any (fun e => overlapsS m e) then dedupSpans acc rest
    else dedupSpans (acc ++ [m]) rest

/-- Embedding of `findAllKeywordMatches(text)` (source lines 251-326). -/
def findAllKeywordMatches (text : List Char) (keywords : List ProjectKeyword) :
    List Span :=
  if text.isEmpty || keywords.isEmpty then []
  else
    let ms := (keywords.map (keywordOccurrences text)).flatten
    let sorted := stableSort (fun a b => decide (a.start ≤ b.start)) ms
    dedupSpans [] sorted

/-! ## Span merger (`renderTextWithHighlights`, source lines 626-655) -/

/-- The source's overlap test between a candidate highlight `m` and an
accepted highlight `e` (source lines 631-635 and 642-646). -/
def overlapsH (m e : Highlight) : Bool :=
  (decide (e.start ≤ m.start) && decide (m.start < e.stop)) ||
  (decide (e.start < m.stop) && decide (m.stop ≤ e.stop)) ||
  (decide (m.start ≤ e.start) && decide (e.stop ≤ m.stop))

/-- Two highlights intersect as half-open intervals. -/
def intersectsH (a b : Highlight) : Bool :=
  decide (a.start < b.stop) && decide (b.start < a.stop)

/-- One iteration of the accepted-list walk of the span merger (source lines
630-652): accept a non-overlapping candidate; a keyword candidate overlapping
an accepted span replaces the first overlapping accepted span if that span is
not a keyword highlight; every other overlapping candidate is dropped. -/
def mergeStep (acc : List Highlight) (h : Highlight) : List Highlight :=
  if acc.any (fun e => overlapsH h e) then
    if h.isKeyword then
      match acc.findIdx? (fun e => overlapsH h e) with
      | some i =>
        if (acc.getD i ⟨0, 0, false⟩).isKeyword then acc
        else acc.set i h
      | none => acc
    else acc
  else acc ++ [h]

/-- The `for (const highlight of allHighlights)` walk of the span merger
(source lines 629-652). -/
def mergeLoop : List Highlight → List Highlight → List Highlight
  | acc, [] => acc
  | acc, h :: rest => mergeLoop (mergeStep acc h) rest

/-- The span-merging pipeline of `renderTextWithHighlights` applied to a
candidate list (source lines 626-655): sort candidates by start (line 626),
walk them with `mergeLoop` (lines 629-652), and re-sort the accepted list by
start (line 655). -/
def renderMergeHighlights (cands : List Highlight) : List Highlight :=
  stableSort (fun a b => decide (a.start ≤ b.start))
    (mergeLoop [] (stableSort (fun a b => decide (a.start ≤ b.start)) cands))

/-- Spec-side merge step, following the spec's words (§4.6): a candidate
overlapping no accepted span is accepted; a `KeywordMatch` candidate
overlapping exactly one accepted span of kind `TransientFeedback` replaces
that span; otherwise the candidate is dropped. -/
def specStep (acc : List Highlight) (c : Highlight) : List Highlight :=
  match acc.filter (fun a => intersectsH c a) with
  | [] => acc ++ [c]
  | [a] =>
    if c.isKeyword && !a.isKeyword then
      acc.map (fun x => if intersectsH c x then c else x)
    else acc
  | _ :: _ :: _ => acc

/-- Spec-side walk of the sorted candidate list. -/
def specLoop : List Highlight → List Highlight → List Highlight
  | acc, [] => acc
  | acc, c :: rest => specLoop (specStep acc c) rest

/-- Spec-side merge pipeline: sort, walk with `specStep`, re-sort. -/
def specMergeHighlights (cands : List Highlight) : List Highlight :=
  stableSort (fun a b => decide (a.start ≤ b.start))
    (specLoop [] (stableSort (fun a b => decide (a.start ≤ b.start)) cands))

/-! ## Trigger controller (`checkMatches` and the textarea wiring,
source lines 330-382, 441-460, 792-807) -/

/-- Controller state: whether a debounce timer is pending, the outstanding
match result, and the dropdown flag. -/
structure TriggerState where
  pending : Bool
  matchResult : Option MatchResult
  showDropdown : Bool
deriving DecidableEq, Repr

/-- The state before any event. -/
def initialTrigger : TriggerState := ⟨false, none, false⟩

/-- Events of the trigger controller:
* `check text cursor enabled` — an invocation of `checkMatches` (a keystroke
  or cursor move), with the current value of the autocomplete toggle;
* `timerFire text cursor` — the pending debounce timer fires and reads the
  live textarea contents;
* `toggleOff` — the `isAutocompleteEnabled` prop becomes `false`;
* `blur` — the textarea loses focus. -/
inductive TEvent where
  | check (text : List Char) (cursor : Nat) (enabled : Bool)
  | timerFire (text : List Char) (cursor : Nat)
  | toggleOff
  | blur
deriving DecidableEq, Repr

/-- One step of the trigger controller, from the source:
* `checkMatches` with the toggle off clears the result, the dropdown and any
  pending timer (source lines 331-340); with the toggle on it cancels the
  previous timer and schedules a new one (lines 342-348);
* when the timer fires it recomputes the word and the matches from the live
  text and cursor (lines 348-381);
* no code in the component reacts to the `isAutocompleteEnabled` prop
  changing by itself, and the textarea's `onBlur` only forwards the caller's
  handler (line 798), so `toggleOff` and `blur` leave the state unchanged. -/
def triggerStep (romanize : List Char → Option (List Char))
    (keywords : List ProjectKeyword) (s : TriggerState) : TEvent → TriggerState
  | .check _ _ enabled =>
    if enabled then { s with pending := true }
    else ⟨false, none, false⟩
  | .timerFire text cursor =>
    if s.pending then
      match findCurrentWord text cursor with
      | none => ⟨false, none, false⟩
      | some w =>
        if w.word.length < 1 then ⟨false, none, false⟩
        else
          match findMatches romanize w.word keywords with
          | none => ⟨false, none, false⟩
          | some m =>
            ⟨false, some { m with start := w.start, stop := w.stop },
              decide (1 < m.matchList.length)⟩
    else s
  | .toggleOff => s
  | .blur => s

/-! ## Facts about the word-boundary locator -/

theorem wordStart_of_delim (text : List Char) (i : Nat)
    (h : isDelim (text.getD i ' ') = true) : wordStart text i = i + 1 := by
  cases i with
  | zero =>
    simp only [wordStart]
    rw [if_pos h]
  | succ k =>
    simp only [wordStart]
    rw [if_pos h]

theorem wordEnd_of_delim_or_len (text : List Char) (pos : Nat)
    (h : pos = text.length ∨ isDelim (text.getD pos ' ') = true) :
    wordEnd text pos = pos := by
  by_cases hlt : pos < text.length
  · rcases h with h | h
    · omega
    · rw [wordEnd, List.drop_eq_getElem_cons hlt]
      rw [List.getD_eq_getElem text ' ' hlt] at h
      simp [List.takeWhile, h]
  · rw [wordEnd, List.drop_eq_nil_of_le (by omega)]
    simp

theorem substringL_self (text : List Char) (pos : Nat) :
    substringL text pos pos = [] := by
  rw [substringL, List.drop_eq_nil_of_le]
  simp [List.length_take]

/-- Claim C3 (amended): for buffer `"ab cd"`, cursor 2 yields the fragment
`{text := "ab", start := 0, end := 2}` and cursor 3 — immediately after the
space — yields `{text := "cd", start := 3, end := 5}` (not `null`); in
general, a cursor with a delimiter immediately to its left and either the
buffer end or a delimiter immediately to its right yields no fragment. -/
theorem findCurrentWord_between_delimiters (text : List Char) (pos : Nat)
    (h1 : 0 < pos) (h2 : pos ≤ text.length)
    (hL : isDelim (text.getD (pos - 1) ' ') = true)
    (hR : pos = text.length ∨ isDelim (text.getD pos ' ') = true) :
    findCurrentWord text pos = none ∧
      findCurrentWord ("ab cd".data) 2 = some ⟨"ab".data, 0, 2⟩ ∧
      findCurrentWord ("ab cd".data) 3 = some ⟨"cd".data, 3, 5⟩ := by
  refine ⟨?_, by decide, by decide⟩
  have hne : text.isEmpty = false := by
    cases text
    · simp at h2; omega
    · simp
  have hmin : min pos text.length = pos := by omega
  rw [findCurrentWord, hne]
  simp only [Bool.false_eq_true, if_false, hmin]
  rw [if_neg (by omega)]
  rw [wordStart_of_delim text (pos - 1) hL]
  rw [wordEnd_of_delim_or_len text pos hR]
  have hpp : pos - 1 + 1 = pos := by omega
  rw [hpp, substringL_self]
  simp

/-- Witness for `findCurrentWord_between_delimiters` at buffer `"a  b"`,
cursor 2 (between the two spaces). -/
theorem findCurrentWord_between_delimiters_witness :
    (0 < 2 ∧ 2 ≤ ("a  b".data).length ∧
        isDelim (("a  b".data).getD 1 ' ') = true ∧
        isDelim (("a  b".data).getD 2 ' ') = true) ∧
      findCurrentWord ("a  b".data) 2 = none :=
  ⟨by decide,
    (findCurrentWord_between_delimiters ("a  b".data) 2 (by decide) (by decide)
      (by decide) (Or.inr (by decide))).1⟩

/-- Claim C3 (counterexample to the claim as stated): for buffer `"ab cd"`
and cursor 3, the locator does not return `null`; it returns the fragment
`{text := "cd", start := 3, end := 5}`. -/
theorem findCurrentWord_cursor_three_not_null :
    findCurrentWord ("ab cd".data) 3 = some ⟨"cd".data, 3, 5⟩ ∧
      findCurrentWord ("ab cd".data) 3 ≠ none := by decide

/-- Claim C2: at cursor offset 0 the locator's delimiter set omits `\r`
(source lines 67-69), so for buffer `"a\rb"` and cursor 0 it returns a
fragment whose text contains a carriage return — contradicting the claim
that a fragment never contains `\r`. -/
theorem findCurrentWord_cursor_zero_carriage_return :
    findCurrentWord ("a\rb".data) 0 = some ⟨"a\rb".data, 0, 3⟩ ∧
      '\r' ∈ ("a\rb".data) := by decide

/-! ## Facts about the keyword matcher -/

/-- If the keyword's first character equals the trimmed fragment's first
character exactly, rule 2 of `matchesKeyword` (source line 139) fires, so
the matcher returns `true` — for any transliteration adapter. -/
theorem matchesKeyword_firstChar (romanize : List Char → Option (List Char))
    (input keyword : List Char)
    (h1 : (trimL input).isEmpty = false) (h2 : keyword.isEmpty = false)
    (h3 : keyword.headD ' ' = (trimL input).headD ' ') :
    matchesKeyword romanize input keyword = true := by
  have hin : input.isEmpty = false := by
    cases input
    · simp [trimL] at h1
    · simp
  rw [matchesKeyword, hin, h2]
  simp only [Bool.or_self, Bool.false_eq_true, if_false, h1]
  set ti := trimL input
  by_cases hr1 : (startsWithL (keyword.map Char.toLower) (ti.map Char.toLower) &&
      keyword.map Char.toLower != ti.map Char.toLower) = true
  · simp [hr1]
  · rw [if_neg hr1]
    rw [if_pos]
    rw [h3]
    simp
    cases keyword
    · simp at h2
    · simp

/-- Claim C4 (counterexample to the claim as stated): fragment `"lx"` and
keyword `"Leah"` have first characters equal up to case, yet the matcher
rejects the pair — the first-character rule compares raw characters. -/
theorem matchesKeyword_first_char_case_cex :
    Char.toLower 'l' = Char.toLower 'L' ∧
      matchesKeyword romanizeLatin ("lx".data) ("Leah".data) = false := by decide

/-- Claim C4 (amended): the exact-prefix and the two phonetic rules compare
lower-cased text, but the first-character rule is case-sensitive: it makes
`matchesKeyword` return `true` exactly when the raw first characters agree,
for every adapter and every fragment/keyword pair with those first
characters equal. -/
theorem matchesKeyword_first_char_exact (romanize : List Char → Option (List Char))
    (input keyword : List Char)
    (h1 : (trimL input).isEmpty = false) (h2 : keyword.isEmpty = false)
    (h3 : keyword.headD ' ' = (trimL input).headD ' ') :
    matchesKeyword romanize input keyword = true :=
  matchesKeyword_firstChar romanize input keyword h1 h2 h3

/-- Witness for `matchesKeyword_first_char_exact`: fragment `"Lx"` (which no
other rule accepts) against keyword `"Leah"`. -/
theorem matchesKeyword_first_char_exact_witness :
    ((trimL ("Lx".data)).isEmpty = false ∧ ("Leah".data).isEmpty = false ∧
        ("Leah".data).headD ' ' = (trimL ("Lx".data)).headD ' ') ∧
      matchesKeyword romanizeLatin ("Lx".data) ("Leah".data) = true :=
  ⟨by decide,
    matchesKeyword_first_char_exact romanizeLatin ("Lx".data) ("Leah".data)
      (by decide) (by decide) (by decide)⟩

/-- Claim C5 (counterexample to the claim as stated): a fragment equal to
the full keyword name does match — `matchesKeyword("Leah", "Leah")` is
`true` (rule 1 excludes the equal pair, but rule 2 accepts it). -/
theorem matchesKeyword_full_name_cex :
    matchesKeyword romanizeLatin ("Leah".data) ("Leah".data) = true := by decide

/-- Claim C5 (amended): for every keyword name that survives trimming with
its first character intact, the fragment equal to the full name matches via
the first-character rule, so a fully-typed keyword is still offered. -/
theorem matchesKeyword_self_match (romanize : List Char → Option (List Char))
    (name : List Char)
    (h1 : (trimL name).isEmpty = false)
    (h2 : name.headD ' ' = (trimL name).headD ' ') :
    matchesKeyword romanize name name = true := by
  have h2' : name.isEmpty = false := by
    cases name
    · simp [trimL] at h1
    · simp
  exact matchesKeyword_firstChar romanize name name h1 h2' h2

/-- Witness for `matchesKeyword_self_match` at name `"Leah"`. -/
theorem matchesKeyword_self_match_witness :
    ((trimL ("Leah".data)).isEmpty = false ∧
        ("Leah".data).headD ' ' = (trimL ("Leah".data)).headD ' ') ∧
      matchesKeyword romanizeLatin ("Leah".data) ("Leah".data) = true :=
  ⟨by decide,
    matchesKeyword_self_match romanizeLatin ("Leah".data) (by decide) (by decide)⟩

/-- Claim C6: for keywords `["Leah", "Leo"]` and fragment `"Le"`, the ranker
returns `matches = ["Leo", "Leah"]` (both tie on the exact-prefix,
first-character and phonetic tiers; the length tier puts the shorter `"Leo"`
first), `bestMatch = "Leo"`, and ghost suffix `"o"`. -/
theorem findMatches_Le_Leo_before_Leah :
    findMatches romanizeLatin ("Le".data) [⟨"Leah".data⟩, ⟨"Leo".data⟩] =
      some ⟨"Le".data, 0, 0, [⟨"Leo".data⟩, ⟨"Leah".data⟩], some ⟨"Leo".data⟩,
        some ("o".data)⟩ := by decide

/-! ## Facts about the trigger controller -/

/-- Claim C9 (counterexample to the claim as stated): after scheduling a
debounce timer, losing focus leaves the timer pending, and after the
autocomplete toggle turns off the scheduled computation still fires and
produces a match result. -/
theorem triggerStep_fires_after_blur_and_toggle :
    (List.foldl (triggerStep romanizeLatin [⟨"Leah".data⟩]) initialTrigger
        [TEvent.check ("Le".data) 2 true, TEvent.blur]).pending = true ∧
      (List.foldl (triggerStep romanizeLatin [⟨"Leah".data⟩]) initialTrigger
        [TEvent.check ("Le".data) 2 true, TEvent.toggleOff,
          TEvent.timerFire ("Le".data) 2]).matchResult ≠ none := by decide

/-- Claim C9 (amended): an invocation of `checkMatches` while the engine is
disabled clears the pending timer and the outstanding result (forcing the
idle state), but the toggle turning off and the blur event are themselves
unhandled: each leaves the controller state — including any pending
timer — unchanged. -/
theorem triggerStep_disabled_clears_blur_unhandled
    (romanize : List Char → Option (List Char))
    (keywords : List ProjectKeyword) (s : TriggerState)
    (text : List Char) (cursor : Nat) :
    triggerStep romanize keywords s (TEvent.check text cursor false) =
        ⟨false, none, false⟩ ∧
      triggerStep romanize keywords s TEvent.blur = s ∧
      triggerStep romanize keywords s TEvent.toggleOff = s :=
  ⟨rfl, rfl, rfl⟩

/-- Claim C1: for buffer `"Annual report"` and non-CJK keyword `"Ann"`, the
occurrence scanner returns the span `{start := 0, end := 3}` even though the
occurrence is not a whole word: the source's `isAtStart` bypass (line 295)
accepts any occurrence touching the start of the buffer. -/
theorem findAllKeywordMatches_Ann_in_Annual :
    findAllKeywordMatches ("Annual report".data) [⟨"Ann".data⟩] =
      [⟨0, 3, ⟨"Ann".data⟩⟩] := by decide

/-! ## Facts about the occurrence scanner's scan loop -/

theorem matchesAt_lt_length (text pat : List Char) (hp : pat ≠ []) (i : Nat)
    (h : matchesAt text pat i = true) : i < text.length := by
  rw [matchesAt, beq_iff_eq] at h
  have hlen := congrArg List.length h
  simp only [List.length_take, List.length_drop] at hlen
  have hplen : 0 < pat.length := List.length_pos.mpr hp
  omega

theorem matchesAt_of_ge_length (text pat : List Char) (hp : pat ≠ []) (i : Nat)
    (h : text.length ≤ i) : matchesAt text pat i = false := by
  rw [matchesAt, List.drop_eq_nil_of_le h, List.take_nil, beq_eq_false_iff_ne]
  exact fun hh => hp hh.symm

theorem indexOfFrom_some (text pat : List Char) (start i : Nat)
    (h : indexOfFrom text pat start = some i) :
    min start text.length ≤ i ∧ matchesAt text pat i = true ∧
      ∀ j, min start text.length ≤ j → matchesAt text pat j = true → i ≤ j := by
  rw [indexOfFrom] at h
  set p := fun k => decide (min start text.length ≤ k) && matchesAt text pat k
    with hpdef
  cases hf : (List.range (text.length + 1)).filter p with
  | nil => rw [hf] at h; cases h
  | cons x t =>
    rw [hf] at h
    simp only [List.head?] at h
    have hix : i = x := by cases h; rfl
    subst hix
    have hmem : i ∈ (List.range (text.length + 1)).filter p := by
      rw [hf]; exact List.mem_cons_self i t
    have hpi : p i = true := (List.mem_filter.mp hmem).2
    have hpw : ((List.range (text.length + 1)).filter p).Pairwise (· < ·) :=
      List.Pairwise.sublist (List.filter_sublist _) (List.pairwise_lt_range _)
    have hiUp : i < text.length + 1 :=
      List.mem_range.mp (List.mem_filter.mp hmem).1
    rw [hpdef] at hpi
    simp only [Bool.and_eq_true, decide_eq_true_eq] at hpi
    refine ⟨hpi.1, hpi.2, ?_⟩
    intro j hj1 hj2
    by_contra hcon
    push_neg at hcon
    have hjrange : j ∈ List.range (text.length + 1) := by
      rw [List.mem_range]
      omega
    have hjf : j ∈ (List.range (text.length + 1)).filter p := by
      rw [List.mem_filter, hpdef]
      refine ⟨hjrange, ?_⟩
      simp only [Bool.and_eq_true, decide_eq_true_eq]
      exact ⟨hj1, hj2⟩
    rw [hf] at hjf
    rw [hf] at hpw
    rcases List.mem_cons.mp hjf with hji | hjt
    · omega
    · have := (List.pairwise_cons.mp hpw).1 j hjt
      omega

theorem indexOfFrom_none (text pat : List Char) (start : Nat)
    (h : indexOfFrom text pat start = none) :
    ∀ j, min start text.length ≤ j → j < text.length + 1 →
      matchesAt text pat j = false := by
  intro j hj1 hj2
  rw [indexOfFrom, List.head?_eq_none_iff] at h
  have := List.filter_eq_nil_iff.mp h j (List.mem_range.mpr hj2)
  simp only [Bool.and_eq_true, decide_eq_true_eq, not_and] at this
  by_contra hcon
  rw [Bool.not_eq_false] at hcon
  exact absurd hcon (this hj1)

theorem scanPosAux_mem (text pat : List Char) (hp : pat ≠ []) :
    ∀ fuel start, start ≤ text.length → text.length + 1 ≤ fuel + start →
      ∀ j, j ∈ scanPosAux text pat fuel start ↔
        (start ≤ j ∧ matchesAt text pat j = true) := by
  intro fuel
  induction fuel with
  | zero =>
    intro start h1 h2 j
    exfalso; omega
  | succ fuel ih =>
    intro start h1 h2 j
    simp only [scanPosAux]
    have hmin : min start text.length = start := by omega
    cases hidx : indexOfFrom text pat start with
    | none =>
      simp only [List.not_mem_nil, false_iff, not_and]
      intro hj1
      by_cases hjl : j < text.length + 1
      · have := indexOfFrom_none text pat start hidx j (by omega) hjl
        simp [this]
      · have := matchesAt_of_ge_length text pat hp j (by omega)
        simp [this]
    | some i =>
      obtain ⟨hi1, hi2, hi3⟩ := indexOfFrom_some text pat start i hidx
      rw [hmin] at hi1 hi3
      have hilen : i < text.length := matchesAt_lt_length text pat hp i hi2
      rw [List.mem_cons, ih (i + 1) (by omega) (by omega) j]
      constructor
      · rintro (rfl | ⟨hj1, hj2⟩)
        · exact ⟨hi1, hi2⟩
        · exact ⟨by omega, hj2⟩
      · rintro ⟨hj1, hj2⟩
        have hij : i ≤ j := hi3 j hj1 hj2
        by_cases hji : j = i
        · left; exact hji
        · right; exact ⟨by omega, hj2⟩

theorem scanPositions_mem (text pat : List Char) (hp : pat ≠ []) (j : Nat) :
    j ∈ scanPositions text pat ↔ matchesAt text pat j = true := by
  rw [scanPositions,
    scanPosAux_mem text pat hp (text.length + 1) 0 (by omega) (by omega) j]
  simp

/-- Claim C7: for a keyword whose name contains a CJK character, the
per-keyword scan of the occurrence scanner records **every** literal
occurrence of the name, each as a span of length `name.length`, with no
adjacency check; in particular, for buffer `"他说沈知夏很高"` and keyword
`"沈知夏"` the scanner returns exactly the span `{start := 2, end := 5}`. -/
theorem keywordOccurrences_chinese_complete (text : List Char)
    (kw : ProjectKeyword) (hp : kw.name ≠ [])
    (hcjk : containsChinese kw.name = true) :
    (∀ i, i ∈ scanPositions text kw.name ↔ matchesAt text kw.name i = true) ∧
      keywordOccurrences text kw =
        (scanPositions text kw.name).map (fun i => ⟨i, i + kw.name.length, kw⟩) ∧
      findAllKeywordMatches ("他说沈知夏很高".data) [⟨"沈知夏".data⟩] =
        [⟨2, 5, ⟨"沈知夏".data⟩⟩] := by
  refine ⟨fun i => scanPositions_mem text kw.name hp i, ?_, by decide⟩
  rw [keywordOccurrences, if_pos hcjk]

/-- Witness for `keywordOccurrences_chinese_complete` at the CJK buffer and
keyword of the claim. -/
theorem keywordOccurrences_chinese_complete_witness :
    (("沈知夏".data ≠ []) ∧ containsChinese ("沈知夏".data) = true) ∧
      ((∀ i, i ∈ scanPositions ("他说沈知夏很高".data) ("沈知夏".data) ↔
          matchesAt ("他说沈知夏很高".data) ("沈知夏".data) i = true) ∧
        keywordOccurrences ("他说沈知夏很高".data) ⟨"沈知夏".data⟩ =
          (scanPositions ("他说沈知夏很高".data) ("沈知夏".data)).map
            (fun i => ⟨i, i + ("沈知夏".data).length, ⟨"沈知夏".data⟩⟩) ∧
        findAllKeywordMatches ("他说沈知夏很高".data) [⟨"沈知夏".data⟩] =
          [⟨2, 5, ⟨"沈知夏".data⟩⟩]) :=
  ⟨⟨by decide, by decide⟩,
    keywordOccurrences_chinese_complete ("他说沈知夏很高".data) ⟨"沈知夏".data⟩
      (by decide) (by decide)⟩

/-! ## Invariants of the occurrence scanner's returned list -/

theorem overlapsS_eq_intersectsS (m e : Span) (hm : m.start < m.stop)
    (he : e.start < e.stop) : overlapsS m e = intersectsS m e := by
  rw [Bool.eq_iff_iff]
  simp only [overlapsS, intersectsS, Bool.or_eq_true, Bool.and_eq_true,
    decide_eq_true_eq]
  omega

theorem intersectsS_symm (a b : Span) : intersectsS a b = intersectsS b a := by
  rw [intersectsS, intersectsS, Bool.and_comm]

theorem mem_keywordOccurrences_shape (text : List Char) (kw : ProjectKeyword)
    (r : Span) (h : r ∈ keywordOccurrences text kw) :
    r.stop = r.start + kw.name.length ∧ r.keyword = kw := by
  rw [keywordOccurrences] at h
  by_cases hc : containsChinese kw.name = true
  · rw [if_pos hc] at h
    obtain ⟨i, _, rfl⟩ := List.mem_map.mp h
    exact ⟨rfl, rfl⟩
  · rw [if_neg hc] at h
    obtain ⟨i, _, rfl⟩ := List.mem_map.mp h
    exact ⟨rfl, rfl⟩

theorem scanPositions_nil (pat : List Char) (hp : pat ≠ []) :
    scanPositions [] pat = [] := by
  cases pat with
  | nil => exact absurd rfl hp
  | cons c cs =>
    rw [scanPositions]
    simp only [List.length_nil, Nat.zero_add, scanPosAux]
    have hidx : indexOfFrom [] (c :: cs) 0 = none := by
      rw [indexOfFrom]
      simp [matchesAt, List.range_succ]
    rw [hidx]

theorem keywordOccurrences_nil (kw : ProjectKeyword) (hp : kw.name ≠ []) :
    keywordOccurrences [] kw = [] := by
  have hp' : kw.name.map Char.toLower ≠ [] := by
    cases hn : kw.name with
    | nil => exact absurd hn hp
    | cons c cs => simp
  rw [keywordOccurrences]
  by_cases hc : containsChinese kw.name = true
  · rw [if_pos hc, scanPositions_nil kw.name hp, List.map_nil]
  · rw [if_neg hc]
    have : ([] : List Char).map Char.toLower = [] := rfl
    rw [this, scanPositions_nil (kw.name.map Char.toLower) hp']
    rfl

theorem dedupSpans_append : ∀ (rest acc : List Span),
    ∃ t, dedupSpans acc rest = acc ++ t ∧ t.Sublist rest := by
  intro rest
  induction rest with
  | nil => exact fun acc => ⟨[], by simp [dedupSpans], List.nil_sublist _⟩
  | cons m rest ih =>
    intro acc
    simp only [dedupSpans]
    by_cases h : acc.any (fun e => overlapsS m e) = true
    · rw [if_pos h]
      obtain ⟨t, ht, hsub⟩ := ih acc
      exact ⟨t, ht, hsub.cons m⟩
    · rw [if_neg h]
      obtain ⟨t, ht, hsub⟩ := ih (acc ++ [m])
      refine ⟨m :: t, ?_, hsub.cons₂ m⟩
      rw [ht, List.append_assoc, List.singleton_append]

theorem dedupSpans_pairwise : ∀ (rest acc : List Span),
    acc.Pairwise (fun a b => intersectsS a b = false) →
    (∀ a ∈ acc, a.start < a.stop) → (∀ m ∈ rest, m.start < m.stop) →
    (dedupSpans acc rest).Pairwise (fun a b => intersectsS a b = false) := by
  intro rest
  induction rest with
  | nil => intro acc hpw _ _; exact hpw
  | cons m rest ih =>
    intro acc hpw haccne hrestne
    simp only [dedupSpans]
    by_cases h : acc.any (fun e => overlapsS m e) = true
    · rw [if_pos h]
      exact ih acc hpw haccne (fun x hx => hrestne x (List.mem_cons_of_mem m hx))
    · rw [if_neg h]
      have hmne : m.start < m.stop := hrestne m (List.mem_cons_self m rest)
      have hno : ∀ e ∈ acc, intersectsS m e = false := by
        intro e he
        have := List.any_eq_false.mp (Bool.not_eq_true _ ▸ h) e he
        rw [← overlapsS_eq_intersectsS m e hmne (haccne e he)]
        exact Bool.not_eq_true _ ▸ this
      refine ih (acc ++ [m]) ?_ ?_
        (fun x hx => hrestne x (List.mem_cons_of_mem m hx))
      · rw [List.pairwise_append]
        refine ⟨hpw, List.pairwise_singleton _ _, ?_⟩
        intro a ha b hb
        rw [List.mem_singleton] at hb
        subst hb
        rw [intersectsS_symm]
        exact hno a ha
      · intro a ha
        rcases List.mem_append.mp ha with ha | ha
        · exact haccne a ha
        · rw [List.mem_singleton] at ha; subst ha; exact hmne

theorem dedupSpans_covers : ∀ (rest acc : List Span),
    (∀ a ∈ acc, a.start < a.stop) → (∀ m ∈ rest, m.start < m.stop) →
    (∀ a ∈ acc, ∀ m ∈ rest, a.start ≤ m.start) →
    rest.Pairwise (fun a b => a.start ≤ b.start) →
    ∀ r ∈ rest, r ∈ dedupSpans acc rest ∨
      ∃ o ∈ dedupSpans acc rest, o.start ≤ r.start ∧ intersectsS o r = true := by
  intro rest
  induction rest with
  | nil => intro acc _ _ _ _ r hr; cases hr
  | cons m rest ih =>
    intro acc haccne hrestne hbefore hpw r hr
    have hmne : m.start < m.stop := hrestne m (List.mem_cons_self m rest)
    simp only [dedupSpans]
    rcases List.mem_cons.mp hr with rfl | hr
    · by_cases h : acc.any (fun e => overlapsS r e) = true
      · rw [if_pos h]
        obtain ⟨e, he, hoe⟩ := List.any_eq_true.mp h
        have hint : intersectsS e r = true := by
          rw [← intersectsS_symm]
          rw [← overlapsS_eq_intersectsS r e hmne (haccne e he)]
          exact hoe
        obtain ⟨t, ht, _⟩ := dedupSpans_append rest acc
        refine Or.inr ⟨e, ?_, ?_, hint⟩
        · rw [ht]; exact List.mem_append_left t he
        · exact hbefore e he r (List.mem_cons_self r rest)
      · rw [if_neg h]
        obtain ⟨t, ht, _⟩ := dedupSpans_append rest (acc ++ [r])
        refine Or.inl ?_
        rw [ht]
        exact List.mem_append_left t (List.mem_append_right acc (List.mem_singleton_self r))
    · by_cases h : acc.any (fun e => overlapsS m e) = true
      · rw [if_pos h]
        exact ih acc haccne
          (fun x hx => hrestne x (List.mem_cons_of_mem m hx))
          (fun a ha x hx => hbefore a ha x (List.mem_cons_of_mem m hx))
          ((List.pairwise_cons.mp hpw).2) r hr
      · rw [if_neg h]
        refine ih (acc ++ [m]) ?_
          (fun x hx => hrestne x (List.mem_cons_of_mem m hx)) ?_
          ((List.pairwise_cons.mp hpw).2) r hr
        · intro a ha
          rcases List.mem_append.mp ha with ha | ha
          · exact haccne a ha
          · rw [List.mem_singleton] at ha; subst ha; exact hmne
        · intro a ha x hx
          rcases List.mem_append.mp ha with ha | ha
          · exact hbefore a ha x (List.mem_cons_of_mem m hx)
          · rw [List.mem_singleton] at ha; subst ha
            exact (List.pairwise_cons.mp hpw).1 x hx

/-- Claim C10: for every buffer and keyword list (with the data model's
non-empty names), the span list returned by the occurrence scanner is
already sorted ascending by `start` and pairwise non-overlapping, and every
raw occurrence that is dropped overlaps a kept span with an earlier-or-equal
start (first-accepted-wins). -/
theorem findAllKeywordMatches_sorted_disjoint (text : List Char)
    (kws : List ProjectKeyword) (h : ∀ k ∈ kws, k.name ≠ []) :
    (findAllKeywordMatches text kws).Pairwise (fun a b => a.start ≤ b.start) ∧
      (findAllKeywordMatches text kws).Pairwise
        (fun a b => intersectsS a b = false) ∧
      ∀ r ∈ (kws.map (keywordOccurrences text)).flatten,
        r ∈ findAllKeywordMatches text kws ∨
          ∃ o ∈ findAllKeywordMatches text kws,
            o.start ≤ r.start ∧ intersectsS o r = true := by
  have hraw : ∀ r ∈ (kws.map (keywordOccurrences text)).flatten,
      r.start < r.stop := by
    intro r hr
    obtain ⟨l, hl, hrl⟩ := List.mem_flatten.mp hr
    obtain ⟨k, hk, rfl⟩ := List.mem_map.mp hl
    obtain ⟨hstop, -⟩ := mem_keywordOccurrences_shape text k r hrl
    have hklen : 0 < k.name.length := List.length_pos.mpr (h k hk)
    omega
  simp only [findAllKeywordMatches]
  by_cases hempty : (text.isEmpty || kws.isEmpty) = true
  · rw [if_pos hempty]
    refine ⟨List.Pairwise.nil, List.Pairwise.nil, ?_⟩
    intro r hr
    exfalso
    rcases (Bool.or_eq_true _ _).mp hempty with ht | hk
    · obtain ⟨l, hl, hrl⟩ := List.mem_flatten.mp hr
      obtain ⟨k, hk', rfl⟩ := List.mem_map.mp hl
      rw [List.isEmpty_iff] at ht
      rw [ht, keywordOccurrences_nil k (h k hk')] at hrl
      cases hrl
    · rw [List.isEmpty_iff] at hk
      rw [hk] at hr
      cases hr
  · rw [if_neg hempty]
    have htr : ∀ a b c : Span, decide (a.start ≤ b.start) = true →
        decide (b.start ≤ c.start) = true →
        decide (a.start ≤ c.start) = true := by
      intro a b c hab hbc
      simp only [decide_eq_true_eq] at *
      omega
    have hto : ∀ a b : Span, decide (a.start ≤ b.start) = true ∨
        decide (b.start ≤ a.start) = true := by
      intro a b
      simp only [decide_eq_true_eq]
      omega
    set raw := (kws.map (keywordOccurrences text)).flatten with hrawdef
    set sorted := stableSort (fun a b : Span => decide (a.start ≤ b.start)) raw
      with hsorteddef
    have hsortedne : ∀ m ∈ sorted, m.start < m.stop := fun m hm =>
      hraw m ((mem_stableSort _ raw m).mp hm)
    have hsortedpw : sorted.Pairwise
        (fun a b => decide (a.start ≤ b.start) = true) :=
      pairwise_stableSort _ htr hto raw
    have hsortedle : sorted.Pairwise (fun a b => a.start ≤ b.start) :=
      hsortedpw.imp (fun hab => by simpa using hab)
    refine ⟨?_, ?_, ?_⟩
    · obtain ⟨t, ht, hsub⟩ := dedupSpans_append sorted []
      rw [ht, List.nil_append]
      exact List.Pairwise.sublist hsub hsortedle
    · exact dedupSpans_pairwise sorted [] List.Pairwise.nil
        (fun a ha => absurd ha (List.not_mem_nil a)) hsortedne
    · intro r hr
      have hr' : r ∈ sorted := (mem_stableSort _ raw r).mpr hr
      exact dedupSpans_covers sorted []
        (fun a ha => absurd ha (List.not_mem_nil a)) hsortedne
        (fun a ha => absurd ha (List.not_mem_nil a)) hsortedle r hr'

/-- Witness for `findAllKeywordMatches_sorted_disjoint` at buffer
`"Ann x Ann"` and keyword `"Ann"`. -/
theorem findAllKeywordMatches_sorted_disjoint_witness :
    (∀ k ∈ [(⟨"Ann".data⟩ : ProjectKeyword)], k.name ≠ []) ∧
      ((findAllKeywordMatches ("Ann x Ann".data) [⟨"Ann".data⟩]).Pairwise
          (fun a b => a.start ≤ b.start) ∧
        (findAllKeywordMatches ("Ann x Ann".data) [⟨"Ann".data⟩]).Pairwise
          (fun a b => intersectsS a b = false) ∧
        ∀ r ∈ ([(⟨"Ann".data⟩ : ProjectKeyword)].map
            (keywordOccurrences ("Ann x Ann".data))).flatten,
          r ∈ findAllKeywordMatches ("Ann x Ann".data) [⟨"Ann".data⟩] ∨
            ∃ o ∈ findAllKeywordMatches ("Ann x Ann".data) [⟨"Ann".data⟩],
              o.start ≤ r.start ∧ intersectsS o r = true) :=
  ⟨by decide,
    findAllKeywordMatches_sorted_disjoint ("Ann x Ann".data) [⟨"Ann".data⟩]
      (by decide)⟩

/-! ## The span merger agrees with the spec's merge policy -/

theorem overlapsH_eq_intersectsH (m e : Highlight) (hm : m.start < m.stop)
    (he : e.start < e.stop) : overlapsH m e = intersectsH m e := by
  rw [Bool.eq_iff_iff]
  simp only [overlapsH, intersectsH, Bool.or_eq_true, Bool.and_eq_true,
    decide_eq_true_eq]
  omega

theorem intersectsH_symm (a b : Highlight) : intersectsH a b = intersectsH b a := by
  rw [intersectsH, intersectsH, Bool.and_comm]

theorem filter_eq_single (p : α → Bool) :
    ∀ (l : List α) (a : α), l.filter p = [a] →
      ∃ l1 l2, l = l1 ++ a :: l2 ∧ (∀ x ∈ l1, p x = false) ∧
        (∀ x ∈ l2, p x = false) ∧ p a = true := by
  intro l
  induction l with
  | nil => intro a h; simp at h
  | cons x xs ih =>
    intro a h
    rw [List.filter_cons] at h
    by_cases hpx : p x = true
    · rw [if_pos hpx] at h
      have hxa : x = a := (List.cons.injEq _ _ _ _).mp h |>.1
      have hrest : xs.filter p = [] := (List.cons.injEq _ _ _ _).mp h |>.2
      subst hxa
      refine ⟨[], xs, rfl, fun y hy => absurd hy (List.not_mem_nil y), ?_, hpx⟩
      intro y hy
      have := List.filter_eq_nil_iff.mp hrest y hy
      exact Bool.not_eq_true _ ▸ this
    · rw [if_neg hpx] at h
      obtain ⟨l1, l2, rfl, hp1, hp2, hpa⟩ := ih a h
      refine ⟨x :: l1, l2, rfl, ?_, hp2, hpa⟩
      intro y hy
      rcases List.mem_cons.mp hy with rfl | hy
      · exact Bool.not_eq_true _ ▸ hpx
      · exact hp1 y hy

theorem findIdx?_first (q : α → Bool) :
    ∀ (l1 : List α) (a : α) (l2 : List α) (i : Nat),
      (∀ x ∈ l1, q x = false) → q a = true →
      (l1 ++ a :: l2).findIdx? q i = some (i + l1.length) := by
  intro l1
  induction l1 with
  | nil =>
    intro a l2 i _ hqa
    simp [List.findIdx?_cons, hqa]
  | cons x xs ih =>
    intro a l2 i hq1 hqa
    rw [List.cons_append, List.findIdx?_cons,
      if_neg (by simp [hq1 x (List.mem_cons_self x xs)]),
      ih a l2 (i + 1) (fun y hy => hq1 y (List.mem_cons_of_mem x hy)) hqa]
    congr 1
    simp only [List.length_cons]
    omega

theorem getD_append_cons (l1 : List α) (a : α) (l2 : List α) (d : α) :
    (l1 ++ a :: l2).getD l1.length d = a := by
  induction l1 with
  | nil => rfl
  | cons x xs ih =>
    rw [List.cons_append, List.length_cons, List.getD_cons_succ]
    exact ih

theorem set_append_cons (l1 : List α) (a : α) (l2 : List α) (c : α) :
    (l1 ++ a :: l2).set l1.length c = l1 ++ c :: l2 := by
  induction l1 with
  | nil => rfl
  | cons x xs ih =>
    rw [List.cons_append, List.length_cons, List.set_cons_succ, ih,
      List.cons_append]

theorem map_replace (p : α → Bool) (c : α) (l1 : List α) (a : α) (l2 : List α)
    (hp1 : ∀ x ∈ l1, p x = false) (hp2 : ∀ x ∈ l2, p x = false)
    (hpa : p a = true) :
    (l1 ++ a :: l2).map (fun x => if p x then c else x) = l1 ++ c :: l2 := by
  rw [List.map_append, List.map_cons, if_pos hpa]
  have h1 : l1.map (fun x => if p x then c else x) = l1 := by
    have hcg : ∀ x ∈ l1, (fun x => if p x then c else x) x = id x := by
      intro x hx
      simp [hp1 x hx]
    rw [List.map_congr_left hcg, List.map_id]
  have h2 : l2.map (fun x => if p x then c else x) = l2 := by
    have hcg : ∀ x ∈ l2, (fun x => if p x then c else x) x = id x := by
      intro x hx
      simp [hp2 x hx]
    rw [List.map_congr_left hcg, List.map_id]
  rw [h1, h2]

theorem specStep_eq_nil (acc : List Highlight) (c : Highlight)
    (h : acc.filter (fun a => intersectsH c a) = []) :
    specStep acc c = acc ++ [c] := by
  rw [specStep, h]

theorem specStep_eq_single (acc : List Highlight) (c a : Highlight)
    (h : acc.filter (fun a => intersectsH c a) = [a]) :
    specStep acc c =
      if c.isKeyword && !a.isKeyword then
        acc.map (fun x => if intersectsH c x then c else x)
      else acc := by
  rw [specStep, h]

theorem specStep_eq_multi (acc : List Highlight) (c a b : Highlight)
    (t : List Highlight)
    (h : acc.filter (fun a => intersectsH c a) = a :: b :: t) :
    specStep acc c = acc := by
  rw [specStep, h]

theorem mergeStep_eq_specStep (acc : List Highlight) (c : Highlight)
    (hpw : acc.Pairwise (fun a b => intersectsH a b = false))
    (haccne : ∀ a ∈ acc, a.start < a.stop) (hc : c.start < c.stop)
    (hle : ∀ a ∈ acc, a.start ≤ c.start) :
    mergeStep acc c = specStep acc c := by
  have hov : ∀ e ∈ acc, overlapsH c e = intersectsH c e := fun e he =>
    overlapsH_eq_intersectsH c e hc (haccne e he)
  cases hf : acc.filter (fun x => intersectsH c x) with
  | nil =>
    have hnone : ∀ e ∈ acc, intersectsH c e = false := fun e he =>
      Bool.not_eq_true _ ▸ (List.filter_eq_nil_iff.mp hf e he)
    have hany : acc.any (fun e => overlapsH c e) = false :=
      List.any_eq_false.mpr (fun e he => by rw [hov e he, hnone e he]; simp)
    rw [specStep_eq_nil acc c hf, mergeStep, hany]
    simp
  | cons a t =>
    cases t with
    | nil =>
      obtain ⟨l1, l2, hacc, hp1, hp2, hpa⟩ := filter_eq_single _ acc a hf
      have hamem : a ∈ acc := by
        rw [hacc]
        exact List.mem_append_right l1 (List.mem_cons_self a l2)
      have hany : acc.any (fun e => overlapsH c e) = true :=
        List.any_eq_true.mpr ⟨a, hamem, by rw [hov a hamem]; exact hpa⟩
      have hidx : acc.findIdx? (fun e => overlapsH c e) = some l1.length := by
        rw [hacc]
        have hq1 : ∀ x ∈ l1, (fun e => overlapsH c e) x = false := by
          intro x hx
          show overlapsH c x = false
          rw [hov x (by rw [hacc]; exact List.mem_append_left _ hx)]
          exact hp1 x hx
        have hqa : (fun e => overlapsH c e) a = true := by
          show overlapsH c a = true
          rw [hov a hamem]; exact hpa
        have := findIdx?_first (fun e => overlapsH c e) l1 a l2 0 hq1 hqa
        simpa using this
      rw [specStep_eq_single acc c a hf, mergeStep, hany, hidx]
      simp only [if_true]
      have hget : acc.getD l1.length ⟨0, 0, false⟩ = a := by
        rw [hacc, getD_append_cons]
      have hset : acc.set l1.length c = l1 ++ c :: l2 := by
        rw [hacc, set_append_cons]
      have hmap : acc.map (fun x => if intersectsH c x then c else x) =
          l1 ++ c :: l2 := by
        rw [hacc, map_replace (fun x => intersectsH c x) c l1 a l2 hp1 hp2 hpa]
      rw [hget, hset, hmap]
      by_cases hck : c.isKeyword = true
      · rw [if_pos hck]
        by_cases hak : a.isKeyword = true
        · rw [if_pos hak, if_neg (by rw [hck, hak]; simp)]
        · rw [if_neg hak, if_pos (by rw [hck]; simp [Bool.not_eq_true _ ▸ hak])]
      · rw [if_neg hck, if_neg (by simp [Bool.not_eq_true _ ▸ hck])]
    | cons b t2 =>
      exfalso
      have hsubpw : (acc.filter (fun x => intersectsH c x)).Pairwise
          (fun a b => intersectsH a b = false) :=
        List.Pairwise.sublist (List.filter_sublist acc) hpw
      clear hov
      rw [hf] at hsubpw
      have hab : intersectsH a b = false :=
        (List.pairwise_cons.mp hsubpw).1 b (List.mem_cons_self b t2)
      have hafilter : a ∈ acc.filter (fun x => intersectsH c x) := by
        rw [hf]; exact List.mem_cons_self a _
      have hbfilter : b ∈ acc.filter (fun x => intersectsH c x) := by
        rw [hf]; exact List.mem_cons_of_mem a (List.mem_cons_self b t2)
      have ha1 : a ∈ acc := List.mem_of_mem_filter hafilter
      have hb1 : b ∈ acc := List.mem_of_mem_filter hbfilter
      have hca : intersectsH c a = true := (List.mem_filter.mp hafilter).2
      have hcb : intersectsH c b = true := (List.mem_filter.mp hbfilter).2
      have hlea := hle a ha1
      have hleb := hle b hb1
      rw [intersectsH] at hca hcb
      simp only [Bool.and_eq_true, decide_eq_true_eq] at hca hcb
      have htrue : intersectsH a b = true := by
        rw [intersectsH]
        simp only [Bool.and_eq_true, decide_eq_true_eq]
        omega
      rw [htrue] at hab
      exact Bool.noConfusion hab

theorem mem_specStep (acc : List Highlight) (c : Highlight) (x : Highlight)
    (h : x ∈ specStep acc c) : x ∈ acc ∨ x = c := by
  cases hf : acc.filter (fun a => intersectsH c a) with
  | nil =>
    rw [specStep_eq_nil acc c hf] at h
    rcases List.mem_append.mp h with h | h
    · exact Or.inl h
    · exact Or.inr (List.mem_singleton.mp h)
  | cons a t =>
    cases t with
    | nil =>
      rw [specStep_eq_single acc c a hf] at h
      by_cases hck : (c.isKeyword && !a.isKeyword) = true
      · rw [if_pos hck] at h
        obtain ⟨y, hy, hyx⟩ := List.mem_map.mp h
        by_cases hint : intersectsH c y = true
        · rw [if_pos hint] at hyx
          exact Or.inr hyx.symm
        · rw [if_neg hint] at hyx
          exact Or.inl (hyx ▸ hy)
      · rw [if_neg hck] at h
        exact Or.inl h
    | cons b t2 =>
      rw [specStep_eq_multi acc c a b t2 hf] at h
      exact Or.inl h

theorem specStep_inv (acc : List Highlight) (c : Highlight)
    (hpw : acc.Pairwise (fun a b => intersectsH a b = false))
    (haccne : ∀ a ∈ acc, a.start < a.stop) (hc : c.start < c.stop) :
    (specStep acc c).Pairwise (fun a b => intersectsH a b = false) ∧
      ∀ x ∈ specStep acc c, x.start < x.stop := by
  cases hf : acc.filter (fun a => intersectsH c a) with
  | nil =>
    rw [specStep_eq_nil acc c hf]
    have hnone : ∀ e ∈ acc, intersectsH c e = false := fun e he =>
      Bool.not_eq_true _ ▸ (List.filter_eq_nil_iff.mp hf e he)
    constructor
    · rw [List.pairwise_append]
      refine ⟨hpw, List.pairwise_singleton _ _, ?_⟩
      intro a ha b hb
      rw [List.mem_singleton] at hb
      subst hb
      rw [intersectsH_symm]
      exact hnone a ha
    · intro x hx
      rcases List.mem_append.mp hx with hx | hx
      · exact haccne x hx
      · rw [List.mem_singleton] at hx; subst hx; exact hc
  | cons a t =>
    cases t with
    | nil =>
      rw [specStep_eq_single acc c a hf]
      by_cases hck : (c.isKeyword && !a.isKeyword) = true
      · rw [if_pos hck]
        obtain ⟨l1, l2, hacc, hp1, hp2, hpa⟩ := filter_eq_single _ acc a hf
        rw [hacc, map_replace (fun x => intersectsH c x) c l1 a l2 hp1 hp2 hpa]
        rw [hacc] at hpw haccne
        rw [List.pairwise_append] at hpw
        obtain ⟨hl1, hal2, hcross⟩ := hpw
        obtain ⟨hahead, hl2⟩ := List.pairwise_cons.mp hal2
        constructor
        · rw [List.pairwise_append]
          refine ⟨hl1, ?_, ?_⟩
          · rw [List.pairwise_cons]
            refine ⟨?_, hl2⟩
            intro x hx
            exact hp2 x hx
          · intro x hx y hy
            rcases List.mem_cons.mp hy with rfl | hy
            · rw [intersectsH_symm]
              exact hp1 x hx
            · exact hcross x hx y (List.mem_cons_of_mem a hy)
        · intro x hx
          rcases List.mem_append.mp hx with hx | hx
          · exact haccne x (List.mem_append_left _ hx)
          · rcases List.mem_cons.mp hx with rfl | hx
            · exact hc
            · exact haccne x
                (List.mem_append_right _ (List.mem_cons_of_mem a hx))
      · rw [if_neg hck]
        exact ⟨hpw, haccne⟩
    | cons b t2 =>
      rw [specStep_eq_multi acc c a b t2 hf]
      exact ⟨hpw, haccne⟩

theorem mergeLoop_eq_specLoop : ∀ (cands acc : List Highlight),
    acc.Pairwise (fun a b => intersectsH a b = false) →
    (∀ a ∈ acc, a.start < a.stop) →
    (∀ a ∈ acc, ∀ c ∈ cands, a.start ≤ c.start) →
    (∀ c ∈ cands, c.start < c.stop) →
    cands.Pairwise (fun a b => a.start ≤ b.start) →
    mergeLoop acc cands = specLoop acc cands := by
  intro cands
  induction cands with
  | nil => intro acc _ _ _ _ _; rfl
  | cons c rest ih =>
    intro acc hpw haccne hbefore hcne hcpw
    have hc : c.start < c.stop := hcne c (List.mem_cons_self c rest)
    have hle : ∀ a ∈ acc, a.start ≤ c.start := fun a ha =>
      hbefore a ha c (List.mem_cons_self c rest)
    have hinv := specStep_inv acc c hpw haccne hc
    simp only [mergeLoop, specLoop]
    rw [mergeStep_eq_specStep acc c hpw haccne hc hle]
    refine ih (specStep acc c) hinv.1 hinv.2 ?_
      (fun x hx => hcne x (List.mem_cons_of_mem c hx))
      ((List.pairwise_cons.mp hcpw).2)
    intro a ha d hd
    rcases mem_specStep acc c a ha with ha' | rfl
    · exact hbefore a ha' d (List.mem_cons_of_mem c hd)
    · exact (List.pairwise_cons.mp hcpw).1 d hd

/-- Claim C8: on any candidate list of non-empty highlight spans, the span
merger of `renderTextWithHighlights` computes exactly the spec's merge
policy — a candidate overlapping no accepted span is accepted, a
`KeywordMatch` candidate overlapping exactly one accepted span of kind
`TransientFeedback` replaces it, every other overlapping candidate is
dropped first-accepted-wins — and the returned list is sorted ascending by
`start`. -/
theorem renderMergeHighlights_eq_spec (cands : List Highlight)
    (h : ∀ x ∈ cands, x.start < x.stop) :
    renderMergeHighlights cands = specMergeHighlights cands ∧
      (renderMergeHighlights cands).Pairwise (fun a b => a.start ≤ b.start) := by
  have htr : ∀ a b c : Highlight, decide (a.start ≤ b.start) = true →
      decide (b.start ≤ c.start) = true →
      decide (a.start ≤ c.start) = true := by
    intro a b c hab hbc
    simp only [decide_eq_true_eq] at *
    omega
  have hto : ∀ a b : Highlight, decide (a.start ≤ b.start) = true ∨
      decide (b.start ≤ a.start) = true := by
    intro a b
    simp only [decide_eq_true_eq]
    omega
  constructor
  · rw [renderMergeHighlights, specMergeHighlights]
    congr 1
    refine mergeLoop_eq_specLoop _ [] List.Pairwise.nil
      (fun a ha => absurd ha (List.not_mem_nil a))
      (fun a ha => absurd ha (List.not_mem_nil a)) ?_ ?_
    · intro c hcand
      exact h c ((mem_stableSort _ cands c).mp hcand)
    · exact (pairwise_stableSort _ htr hto cands).imp
        (fun hab => by simpa using hab)
  · rw [renderMergeHighlights]
    exact (pairwise_stableSort _ htr hto _).imp (fun hab => by simpa using hab)

/-- Witness for `renderMergeHighlights_eq_spec`: a transient span `[0,5)`
followed by an equal keyword candidate — the keyword replaces the transient
feedback. -/
theorem renderMergeHighlights_eq_spec_witness :
    (∀ x ∈ [(⟨0, 5, false⟩ : Highlight), ⟨0, 5, true⟩], x.start < x.stop) ∧
      (renderMergeHighlights [⟨0, 5, false⟩, ⟨0, 5, true⟩] =
          specMergeHighlights [⟨0, 5, false⟩, ⟨0, 5, true⟩] ∧
        (renderMergeHighlights [⟨0, 5, false⟩, ⟨0, 5, true⟩]).Pairwise
          (fun a b => a.start ≤ b.start)) :=
  ⟨by decide,
    renderMergeHighlights_eq_spec [⟨0, 5, false⟩, ⟨0, 5, true⟩] (by decide)⟩
